import Mathlib

/-!
Verification of `llama-tenseal` (`src/llama/model.py`): a LLaMA-style
transformer whose attention projections pass through a CKKS (TenSEAL)
encryption bridge.  Shallow embedding of the model's data and operations:
tensors are nested lists (over `ℚ` where the code is plain arithmetic, over
`ℝ`/`ℂ` where the code uses trigonometry), the KV cache is a list of
position entries with Python slice-assignment semantics, and CKKS
encryption is modelled exactly (noiseless), which is the tolerance-zero
idealisation of the approximate scheme.
-/

namespace LlamaTenseal

/-- Dot product of two rational vectors (`torch` inner product). -/
def dot (a b : List ℚ) : ℚ := (List.zipWith (· * ·) a b).sum

/-- Layer `nn.Linear(in_f, out_f, bias=False)` applied to one input vector:
`y = W x` where `W` is the `out_f × in_f` weight matrix (list of rows). -/
def matVec (W : List (List ℚ)) (x : List ℚ) : List ℚ :=
  W.map (fun row => dot row x)

/-- A bias-free linear layer applied row-wise to a 2-D activation
(sequence of feature vectors), as `linear(x)` does in the source. -/
def linearApply (W : List (List ℚ)) (x : List (List ℚ)) : List (List ℚ) :=
  x.map (fun row => matVec W row)

/-! ## CKKS context and ciphertexts (idealised)

`model.py` builds a module-level TenSEAL CKKS context and encrypts with
`ts.ckks_tensor(context, x)`, decrypting with `.decrypt()` followed by
`plainToTorch`.  CKKS is approximate; the code relies on the scheme's
tolerance.  We model the scheme at tolerance zero: a ciphertext carries the
exact encoded array, `decrypt` recovers it exactly. -/

/-- An encrypted 2-D tensor: the ciphertext of a (sequence, feature) array
under the module-level context.  Idealised: carries the exact plaintext. -/
structure Ciphertext where
  data : List (List ℚ)
deriving DecidableEq, Repr

/-- Encryption `ts.ckks_tensor(context, x)` of a 2-D array. -/
def ckks_tensor (x : List (List ℚ)) : Ciphertext := ⟨x⟩

/-- Decryption: `tensor.decrypt()` followed by `plainToTorch` recovers the array. -/
def decryptToTorch (c : Ciphertext) : List (List ℚ) := c.data

/-- Function `encryptedLinearTransform(linear, tensor)` from `model.py` lines
114–116: decrypt the ciphertext, apply the plaintext linear layer by
ordinary matrix multiplication, re-encrypt the result. -/
def encryptedLinearTransform (W : List (List ℚ)) (t : Ciphertext) : Ciphertext :=
  ckks_tensor (linearApply W (decryptToTorch t))

/-! ## FeedForward hidden width

`FeedForward.__init__` (lines 222–224) receives `hidden_dim` and computes
`hidden_dim = int(2 * hidden_dim / 3)` then rounds up to a multiple of
`multiple_of`.  `TransformerBlock.__init__` (line 248) passes
`hidden_dim = 4 * dim`.  Over the naturals, Python's
`int(2 * h / 3)` is the floor `2 * h / 3` (truncating division of
non-negative values). -/

/-- The hidden-width adjustment done inside `FeedForward.__init__`. -/
def ffnHiddenAdjust (hidden_dim multiple_of : ℕ) : ℕ :=
  let h := 2 * hidden_dim / 3
  multiple_of * ((h + multiple_of - 1) / multiple_of)

/-- The hidden width actually allocated by a `TransformerBlock`, which
passes `4 * dim` as the nominal hidden width. -/
def feedForwardHiddenDim (dim multiple_of : ℕ) : ℕ :=
  ffnHiddenAdjust (4 * dim) multiple_of

/-- The hidden width described by the spec sentence of C10:
`multiple_of * ceil((2 * (4*dim) / 3) / multiple_of)`, the nominal width
`4*dim` first shrunk to two-thirds truncated to an integer, then rounded up
to the next multiple of the alignment constant. -/
def specHiddenDim (dim multiple_of : ℕ) : ℕ :=
  multiple_of * ⌈((2 * (4 * dim) / 3 : ℕ) : ℚ) / (multiple_of : ℚ)⌉₊

/-- The naive reading C10 rules out: the nominal `4*dim` merely rounded up
to a multiple of the alignment constant. -/
def nominalRoundedUp (dim multiple_of : ℕ) : ℕ :=
  multiple_of * ⌈((4 * dim : ℕ) : ℚ) / (multiple_of : ℚ)⌉₊

/-! ## KV cache

`Attention.__init__` allocates `cache_k`/`cache_v` of shape
`(max_batch_size, max_seq_len, n_local_heads, head_dim)`;
`Attention.forward` writes `cache_k[:bsz, start_pos : start_pos + seqlen] = xk`
and reads back `cache_k[:bsz, : start_pos + seqlen]` (lines 194–198).  We
model the position axis of one batch row: the cache is a list of
`max_seq_len` entries (each entry standing for a `(heads, head_dim)`
plaintext slice, of arbitrary type `α`), and slice assignment follows
Python/torch semantics: the slice `start : start + len` is clamped to the
list's length; assignment succeeds when the right-hand side's length equals
the clamped slice's length, or broadcasts a length-1 (or length-0)
right-hand side into an empty clamped slice writing nothing; any other
length disagreement is a runtime shape error that leaves the cache
untouched. -/

/-- Slice assignment `cache[start : start + rhs.length] = rhs` with torch clamping and
broadcast rules. -/
def cacheWrite {α : Type} (cache : List α) (start : ℕ) (rhs : List α) :
    Except String (List α) :=
  let lo := min start cache.length
  let hi := min (start + rhs.length) cache.length
  if hi - lo = rhs.length then
    Except.ok (cache.take lo ++ rhs ++ cache.drop (lo + rhs.length))
  else if rhs.length = 1 ∧ hi - lo = 0 then
    Except.ok cache
  else
    Except.error "shape mismatch"

/-- Read-back `cache[: start_pos + seqlen]` of the causal positions, line
197/198. -/
def cacheRead {α : Type} (cache : List α) (start_pos seqlen : ℕ) : List α :=
  cache.take (start_pos + seqlen)

/-! ## Causal mask and attention scores

`Transformer.forward` (lines 292–295) builds
`mask = torch.full((1, 1, seqlen, seqlen), -inf)` followed by
`torch.triu(mask, diagonal=start_pos + 1)` whenever `seqlen > 1`, and
passes `mask = None` when `seqlen == 1`.  `Attention.forward` (lines
203–206) computes `scores` with trailing shape
`(seqlen, start_pos + seqlen)` and evaluates `scores + mask` when the mask
is present.  We model `-inf` as `none : Option ℚ` (so a mask entry is
`none` = `-inf` or `some 0`), and torch's elementwise addition guarded by
the broadcast-compatibility rule on right-aligned shapes. -/

/-- A single torch broadcast step: two dimension sizes are compatible when
equal or when either is 1. -/
def dimsCompatible (x y : ℕ) : Bool := decide (x = y ∨ x = 1 ∨ y = 1)

/-- Right-aligned dimension lists compatibility (shapes already reversed);
a missing dimension is treated as 1, hence always compatible. -/
def broadcastDims : List ℕ → List ℕ → Bool
  | [], _ => true
  | _ :: _, [] => true
  | x :: xs, y :: ys => dimsCompatible x y && broadcastDims xs ys

/-- torch broadcast compatibility of two shapes. -/
def broadcastCompatible (a b : List ℕ) : Bool :=
  broadcastDims a.reverse b.reverse

/-- Shape of the causal mask tensor built at line 294:
`(1, 1, seqlen, seqlen)`. -/
def maskShape (seqlen : ℕ) : List ℕ := [1, 1, seqlen, seqlen]

/-- Shape of the attention scores at line 203:
`(bsz, n_local_heads, seqlen, start_pos + seqlen)` (the key axis runs over
the full causal prefix read back from the cache). -/
def scoresShape (bsz n_local_heads seqlen start_pos : ℕ) : List ℕ :=
  [bsz, n_local_heads, seqlen, start_pos + seqlen]

/-- The trailing `(seqlen, seqlen)` block of the causal mask:
`torch.full(..., -inf)` then `triu(·, diagonal = start_pos + 1)` keeps
`-inf` exactly where `j - i ≥ start_pos + 1` and zeroes the rest. -/
def causalMask (seqlen start_pos : ℕ) : List (List (Option ℚ)) :=
  (List.range seqlen).map (fun i =>
    (List.range seqlen).map (fun j =>
      if i + start_pos + 1 ≤ j then none else some (0 : ℚ)))

/-- The mask argument `Transformer.forward` passes to the layers:
`None` when `seqlen == 1`, the triu mask otherwise (lines 292–295). -/
def forwardMask (seqlen start_pos : ℕ) : Option (List (List (Option ℚ))) :=
  if 1 < seqlen then some (causalMask seqlen start_pos) else none

/-- Additive application of one mask entry to one score:
`s + (-inf) = -inf`, `s + 0 = s`. -/
def addMaskEntry (s : ℚ) (m : Option ℚ) : Option ℚ := m.map (fun v => s + v)

/-- The 2-D shape `(rows, cols)` of a nested-list matrix. -/
def shape2 {β : Type} (m : List (List β)) : List ℕ :=
  [m.length, (m.headD []).length]

/-- Addition `scores + mask` on the trailing two axes: defined only when the two
2-D shapes are broadcast-compatible (on every reachable call the mask is
`seqlen × seqlen` with `seqlen > 1`, so compatibility forces the shapes to
be equal and the addition is the elementwise zip). -/
def maskedScores (scores : List (List ℚ)) (mask : List (List (Option ℚ))) :
    Except String (List (List (Option ℚ))) :=
  if broadcastCompatible (shape2 scores) (shape2 mask) = true then
    Except.ok (List.zipWith (fun srow mrow => List.zipWith addMaskEntry srow mrow)
      scores mask)
  else
    Except.error "broadcast shape mismatch"

/-- Softmax `F.softmax(scores, dim=-1)` on one row of possibly `-inf` scores,
parameterised by the exponential `f` (any function standing for `exp` on
finite values); `exp(-inf) = 0`, and each weight is divided by the row
sum. -/
def softmaxRow (f : ℚ → ℚ) (row : List (Option ℚ)) : List ℚ :=
  let ws := row.map (fun s => match s with | none => 0 | some v => f v)
  ws.map (fun w => w / ws.sum)

/-- The property asserted by C4 at one forward call: the mask addition
succeeds and the masked score at every `(i, j)` with `j > start_pos + i`
is `-inf`. -/
def maskClaimHolds (seqlen start_pos : ℕ) (scores : List (List ℚ)) : Prop :=
  ∃ M, maskedScores scores (causalMask seqlen start_pos) = Except.ok M ∧
    ∀ i j, i < seqlen → j < start_pos + seqlen → start_pos + i < j →
      ∃ row, M[i]? = some row ∧ row[j]? = some none

/-! ## Model configuration and tensor shapes

`ModelArgs` (lines 23–33) with the source's defaults; `vocab_size` is set
later by the tokenizer (default `-1` in the source, not used here).
`Attention.__init__` sets `n_local_heads = n_heads` and
`head_dim = dim // n_heads` and allocates the caches with shape
`(max_batch_size, max_seq_len, n_local_heads, head_dim)`.
`Attention.forward` (lines 156–179) squeezes the input before encryption
and reshapes each projected ciphertext to
`(seqlen, n_local_heads, head_dim)`; `torch` squeeze drops every size-1
axis, and a ciphertext `reshape` is legal only when the element counts
agree. -/

structure ModelArgs where
  dim : ℕ := 512
  n_layers : ℕ := 8
  n_heads : ℕ := 8
  vocab_size : ℤ := -1
  multiple_of : ℕ := 256
  norm_eps : ℚ := 1 / 100000
  max_batch_size : ℕ := 32
  max_seq_len : ℕ := 1024

/-- Head dimension `self.head_dim = args.dim // args.n_heads` (line 123). -/
def headDim (args : ModelArgs) : ℕ := args.dim / args.n_heads

/-- Shape of `cache_k` / `cache_v` allocated at lines 149–154. -/
def cacheShape (args : ModelArgs) : List ℕ :=
  [args.max_batch_size, args.max_seq_len, args.n_heads, headDim args]

/-- Squeeze (`torch.squeeze`): drop every axis of size 1. -/
def squeezeShape (s : List ℕ) : List ℕ := s.filter (fun d => d != 1)

/-- Element count of a shape. -/
def numel (s : List ℕ) : ℕ := s.prod

/-- A `reshape` from shape `src` to shape `tgt` is well-defined exactly
when the element counts agree. -/
def reshapeValid (src tgt : List ℕ) : Bool := decide (numel src = numel tgt)

/-- Shape of each projected ciphertext in `Attention.forward`: the input
`(bsz, seqlen, dim)` is squeezed before encryption (line 159), and each
projection maps the last axis `dim → dim`, preserving the shape. -/
def attentionProjShape (bsz seqlen dim : ℕ) : List ℕ :=
  squeezeShape [bsz, seqlen, dim]

/-- The target layout `(seqlen, n_local_heads, head_dim)` of the ciphertext
reshapes at lines 173–177 — note: no batch axis. -/
def headSplitShape (seqlen n_local_heads head_dim : ℕ) : List ℕ :=
  [seqlen, n_local_heads, head_dim]

/-! ## Rotary table and rotation

`precompute_freqs_cis` (lines 50–55): frequencies
`1 / theta^(2i/dim)` for `i < dim/2`, outer product with positions
`0, …, end-1`, then `torch.polar(1, angle)` giving the unit complex value
at each angle.  `Transformer.__init__` (lines 281–283) builds the table
with `dim // n_heads` and `max_seq_len * 2`.

`apply_rotary_emb` (lines 93–100, the executed body): `freqs_cis_l`
duplicates each row's real parts over the feature pair, `freqs_cis_r`
interleaves `(-im, im)`; the executed pair selection is `slice(0, 2)` —
the elements of each adjacent pair in their original order (the docstring
above the function and its original, commented form use `[1, 0]`, the
swap) — and the result is `x * freqs_cis_l + x_ * freqs_cis_r`. -/

/-- Polar form `torch.polar(r, θ) = r cos θ + (r sin θ) i`. -/
noncomputable def torchPolar (r θ : ℝ) : ℂ :=
  Complex.ofReal (r * Real.cos θ) + Complex.ofReal (r * Real.sin θ) * Complex.I

/-- Table `precompute_freqs_cis(dim, end, theta)` as a (position, frequency)
table of unit complex values. -/
noncomputable def precompute_freqs_cis (dim endLen : ℕ) (theta : ℝ) : List (List ℂ) :=
  let freqs := (List.range (dim / 2)).map
    (fun (i : ℕ) => 1 / theta ^ (((2 * i : ℕ) : ℝ) / (dim : ℝ)))
  (List.range endLen).map
    (fun (p : ℕ) => freqs.map (fun f => torchPolar 1 ((p : ℝ) * f)))

/-- Entry `(p, i)` of the rotary table (0 outside the table). -/
noncomputable def freqsCisEntry (dim endLen : ℕ) (theta : ℝ) (p i : ℕ) : ℂ :=
  ((precompute_freqs_cis dim endLen theta).getD p []).getD i 0

/-- Assignment `self.freqs_cis = precompute_freqs_cis(dim // n_heads, max_seq_len * 2)`
(lines 281–283), with the default base 10000.0. -/
noncomputable def transformerFreqsCis (args : ModelArgs) : List (List ℂ) :=
  precompute_freqs_cis (args.dim / args.n_heads) (args.max_seq_len * 2) 10000

/-- Row `freqs_cis_l` for one position: each cos value duplicated over its
feature pair (`cat((ll, ll), -1).flatten`). -/
noncomputable def freqsCisL (fcRow : List ℂ) : List ℝ :=
  fcRow.flatMap (fun c => [c.re, c.re])

/-- Row `freqs_cis_r` for one position: `cat((-rr, rr), -1).flatten` — each
pair gets `(-sin, sin)`. -/
noncomputable def freqsCisR (fcRow : List ℂ) : List ℝ :=
  fcRow.flatMap (fun c => [-c.im, c.im])

/-- The `view(seqlen, heads, head_dim // 2, 2)[:, :, :, [a, b]].flatten`
idiom: regroup a head vector into adjacent pairs and rebuild each pair
with `g`. -/
def pairTransform (g : ℝ → ℝ → ℝ × ℝ) : List ℝ → List ℝ
  | x :: y :: rest => (g x y).1 :: (g x y).2 :: pairTransform g rest
  | [x] => [x]
  | [] => []

/-- The executed rotary update of one head vector (lines 97–98): the pair
selection is `slice(0, 2)` — identity order — so
`out = v * freqs_cis_l + v * freqs_cis_r`. -/
noncomputable def apply_rotary_head (fcRow : List ℂ) (v : List ℝ) : List ℝ :=
  let v_ := pairTransform (fun x y => (x, y)) v
  List.zipWith (· + ·) (List.zipWith (· * ·) v (freqsCisL fcRow))
    (List.zipWith (· * ·) v_ (freqsCisR fcRow))

/-- The docstring's original rotary update (lines 73–81, commented out in
the executed body): pair selection `[1, 0]` — the swap. -/
noncomputable def rotary_head_swap (fcRow : List ℂ) (v : List ℝ) : List ℝ :=
  let v_ := pairTransform (fun x y => (y, x)) v
  List.zipWith (· + ·) (List.zipWith (· * ·) v (freqsCisL fcRow))
    (List.zipWith (· * ·) v_ (freqsCisR fcRow))

/-- Function `apply_rotary_emb(xq, xk, …, freqs_cis)` (executed body): the update
applied position-wise (zipping with the rotary slice) and head-wise to the
query and key tensors. -/
noncomputable def apply_rotary_emb (xq xk : List (List (List ℝ)))
    (freqs_cis : List (List ℂ)) :
    List (List (List ℝ)) × List (List (List ℝ)) :=
  (List.zipWith (fun fcRow heads => heads.map (apply_rotary_head fcRow)) freqs_cis xq,
    List.zipWith (fun fcRow heads => heads.map (apply_rotary_head fcRow)) freqs_cis xk)

/-! ## Final projection stage

`Transformer.forward`, lines 299–301: `h = self.norm(h)` (RMSNorm applied
position-wise: `x * rsqrt(mean(x², -1) + eps) * weight`), then
`output = self.output(h[:, -1, :])` — only the last position's hidden
state is projected to the vocabulary. -/

/-- RMSNorm on a single position's feature vector, with learned weight
`w` and epsilon `eps`. -/
noncomputable def rmsNormRow (w : List ℝ) (eps : ℝ) (x : List ℝ) : List ℝ :=
  let ms := (x.map (fun v => v ^ 2)).sum / (x.length : ℝ) + eps
  List.zipWith (fun v wi => v * (Real.sqrt ms)⁻¹ * wi) x w

/-- A bias-free linear layer over ℝ on one vector. -/
noncomputable def matVecR (W : List (List ℝ)) (x : List ℝ) : List ℝ :=
  W.map (fun row => (List.zipWith (· * ·) row x).sum)

/-- Lines 299–301: normalize every position, then project only the last
position of each batch element with the output matrix `W`
(`vocab_size × dim`). -/
noncomputable def transformerOutputStage (W : List (List ℝ)) (w : List ℝ)
    (eps : ℝ) (h : List (List (List ℝ))) : List (List ℝ) :=
  let normed := h.map (fun seq => seq.map (rmsNormRow w eps))
  normed.map (fun seq => matVecR W ((seq.getLast?).getD []))

/-! ## Theorems for the claims -/

/-- Natural-number rounding-up division `(h + m - 1) / m` is the rational
ceiling of `h / m`, for `m > 0`. -/
lemma add_pred_div_eq_ceil (h m : ℕ) (hm : 0 < m) :
    (h + m - 1) / m = ⌈(h : ℚ) / (m : ℚ)⌉₊ := by
  have hmq : (0 : ℚ) < (m : ℚ) := by exact_mod_cast hm
  rw [← Nat.ceilDiv_eq_add_pred_div]
  refine eq_of_forall_ge_iff (fun c => ?_)
  rw [ceilDiv_le_iff_le_smul hm, smul_eq_mul, Nat.ceil_le, div_le_iff₀ hmq,
    mul_comm (c : ℚ) (m : ℚ)]
  exact_mod_cast Iff.rfl

/-- A masked (`-inf`) score position gets post-softmax probability exactly
0, whatever the exponential does on finite values. -/
lemma softmaxRow_masked_zero (f : ℚ → ℚ) (row : List (Option ℚ)) (j : ℕ)
    (hj : row[j]? = some none) : (softmaxRow f row)[j]? = some 0 := by
  simp [softmaxRow, List.getElem?_map, hj, zero_div]

/-- C3. The encrypted linear-projection bridge is correct (at the exact,
tolerance-zero model of CKKS): decrypting the result of
`encryptedLinearTransform` applied to `ckks_tensor x` equals the plaintext
projection `linearApply W x`, because the bridge decrypts its ciphertext
input, applies the plaintext weight matrix by standard matrix
multiplication, and re-encrypts the result. -/
theorem encryptedLinearTransform_correct (W : List (List ℚ)) (x : List (List ℚ)) :
    decryptToTorch (encryptedLinearTransform W (ckks_tensor x)) = linearApply W x := rfl

/-- C2 (amended). No capacity check exists in `Attention.forward`: when
`start_pos + seqlen` exceeds the allocated `max_seq_len`, either
`seqlen = 1` and `start_pos ≥ max_seq_len`, in which case the clamped slice
assignment silently writes nothing and raises no error at all, or the
clamped slice is shorter than the right-hand side and a generic
shape-mismatch error aborts the call with the cache untouched.  In neither
case is a `CapacityExceeded` error raised. -/
theorem cacheWrite_no_capacity_check {α : Type} (cache : List α) (start : ℕ)
    (rhs : List α) (hlen : 0 < rhs.length)
    (hover : cache.length < start + rhs.length) :
    (cacheWrite cache start rhs = Except.ok cache ∧ rhs.length = 1 ∧
        cache.length ≤ start) ∨
      cacheWrite cache start rhs = Except.error "shape mismatch" := by
  simp only [cacheWrite]
  split_ifs with hrows hbr
  · omega
  · exact Or.inl ⟨rfl, hbr.1, by omega⟩
  · exact Or.inr rfl

/-- Witness for C2 at a concrete overflowing call: a cache of capacity 2,
`start_pos = 2`, one new entry. -/
theorem cacheWrite_no_capacity_check_witness :
    0 < ([99] : List ℕ).length ∧
      ([10, 11] : List ℕ).length < 2 + ([99] : List ℕ).length ∧
      ((cacheWrite [10, 11] 2 [99] = Except.ok [10, 11] ∧
          ([99] : List ℕ).length = 1 ∧ ([10, 11] : List ℕ).length ≤ 2) ∨
        cacheWrite [10, 11] 2 [99] = Except.error "shape mismatch") :=
  ⟨by decide, by decide,
    cacheWrite_no_capacity_check [10, 11] 2 [99] (by decide) (by decide)⟩

/-- The code raises no error and performs no write on a single-position
overflowing step: the concrete counterexample to C2 as stated (which says a
`CapacityExceeded` error is raised). -/
theorem cacheWrite_overflow_silently_ignored :
    cacheWrite ([10, 11] : List ℕ) 2 [99] = Except.ok [10, 11] := rfl

/-- C5. KV-cache frame property: writing three entries at positions
0..2 and then one entry at position 3 leaves positions 0..2 unchanged by
the second write, puts exactly the second write's entry at position 3, and
the read-back at the second call (`cache[: start_pos + seqlen]`) returns
the prefix of length 4, so it is determined by positions < 4 alone —
positions at or beyond `start_pos + seqlen` are never read back. -/
theorem kvCache_two_step {α : Type} (c0 k1 k2 : List α)
    (hL : 4 ≤ c0.length) (h1 : k1.length = 3) (h2 : k2.length = 1) :
    ∃ c1 c2, cacheWrite c0 0 k1 = Except.ok c1 ∧
      cacheWrite c1 3 k2 = Except.ok c2 ∧
      c2.take 3 = c1.take 3 ∧ c1.take 3 = k1 ∧
      (c2.drop 3).take 1 = k2 ∧
      cacheRead c2 3 1 = c2.take 4 ∧
      ∀ d : List α, d.take 4 = c2.take 4 → cacheRead d 3 1 = cacheRead c2 3 1 := by
  have hc1 : cacheWrite c0 0 k1 = Except.ok (k1 ++ c0.drop 3) := by
    simp only [cacheWrite, h1]
    rw [if_pos (by omega)]
    simp
  have hlen1 : (k1 ++ c0.drop 3).length = c0.length := by
    simp [h1]; omega
  have hmin : min 3 (k1 ++ c0.drop 3).length = 3 := by omega
  have hc2 : cacheWrite (k1 ++ c0.drop 3) 3 k2 =
      Except.ok (k1 ++ (k2 ++ (k1 ++ c0.drop 3).drop 4)) := by
    simp only [cacheWrite, h2]
    rw [if_pos (by omega)]
    rw [hmin, List.take_left' h1, List.append_assoc]
  refine ⟨k1 ++ c0.drop 3, _, hc1, hc2, ?_, ?_, ?_, rfl, ?_⟩
  · rw [List.take_left' h1, List.take_left' h1]
  · exact List.take_left' h1
  · rw [List.drop_left' h1, List.take_left' h2]
  · intro d hd
    simp only [cacheRead]
    exact hd

/-- Witness for C5 on a concrete 4-slot cache. -/
theorem kvCache_two_step_witness :
    4 ≤ ([0, 0, 0, 0] : List ℕ).length ∧ ([1, 2, 3] : List ℕ).length = 3 ∧
      ([7] : List ℕ).length = 1 ∧
      (∃ c1 c2, cacheWrite [0, 0, 0, 0] 0 [1, 2, 3] = Except.ok c1 ∧
        cacheWrite c1 3 [7] = Except.ok c2 ∧
        c2.take 3 = c1.take 3 ∧ c1.take 3 = [1, 2, 3] ∧
        (c2.drop 3).take 1 = [7] ∧
        cacheRead c2 3 1 = c2.take 4 ∧
        ∀ d : List ℕ, d.take 4 = c2.take 4 → cacheRead d 3 1 = cacheRead c2 3 1) :=
  ⟨by decide, by decide, by decide,
    kvCache_two_step [0, 0, 0, 0] [1, 2, 3] [7] (by decide) (by decide) (by decide)⟩

/-- C10. The feed-forward hidden width is
`multiple_of * ceil((2 * (4*dim) / 3) / multiple_of)` (two-thirds shrink,
truncated, before rounding up) for every `dim` and positive `multiple_of`;
and it differs from the nominal `4*dim` merely rounded up (witnessed at
`dim = 512`, `multiple_of = 256`, the source defaults). -/
theorem feedForwardHiddenDim_correct (dim multiple_of : ℕ) (hm : 0 < multiple_of) :
    feedForwardHiddenDim dim multiple_of = specHiddenDim dim multiple_of ∧
      feedForwardHiddenDim 512 256 ≠ nominalRoundedUp 512 256 := by
  constructor
  · simp only [feedForwardHiddenDim, ffnHiddenAdjust, specHiddenDim]
    rw [add_pred_div_eq_ceil _ _ hm]
  · have h1 : feedForwardHiddenDim 512 256 = 1536 := by decide
    have h2 : nominalRoundedUp 512 256 = 2048 := by
      unfold nominalRoundedUp
      rw [show ((4 * 512 : ℕ) : ℚ) / ((256 : ℕ) : ℚ) = (8 : ℚ) by push_cast; norm_num]
      norm_num
    omega

/-- Witness for C10 at `dim = 512`, `multiple_of = 256`. -/
theorem feedForwardHiddenDim_correct_witness :
    0 < 256 ∧ (feedForwardHiddenDim 512 256 = specHiddenDim 512 256 ∧
      feedForwardHiddenDim 512 256 ≠ nominalRoundedUp 512 256) :=
  ⟨by decide, feedForwardHiddenDim_correct 512 256 (by decide)⟩

/-- Pointwise description of `List.zipWith` under `getElem?`. -/
lemma zipWith_getElem? {α β γ : Type} (f : α → β → γ) (as : List α) (bs : List β)
    (i : ℕ) (ha : i < as.length) (hb : i < bs.length) :
    (List.zipWith f as bs)[i]? = some (f (as.get ⟨i, ha⟩) (bs.get ⟨i, hb⟩)) := by
  rw [List.getElem?_eq_getElem (by rw [List.length_zipWith]; omega)]
  simp [List.getElem_zipWith]

/-- C8. The causal mask is built with shape `(1, 1, seqlen, seqlen)`
while the attention scores have shape
`(bsz, n_local_heads, seqlen, start_pos + seqlen)`: for `seqlen > 1` and
`start_pos > 0` the additive mask application is not broadcast-compatible
(last axes `seqlen` vs `start_pos + seqlen`), while at `start_pos = 0` the
shapes are compatible, and at `seqlen = 1` no mask is built at all. -/
theorem mask_broadcast_requires_start_zero (bsz n_local_heads seqlen start_pos : ℕ)
    (hs : 1 < seqlen) (hp : 0 < start_pos) :
    broadcastCompatible (maskShape seqlen)
        (scoresShape bsz n_local_heads seqlen start_pos) = false ∧
      broadcastCompatible (maskShape seqlen)
        (scoresShape bsz n_local_heads seqlen 0) = true ∧
      forwardMask 1 start_pos = none := by
  refine ⟨?_, ?_, rfl⟩
  · have h1 : dimsCompatible seqlen (start_pos + seqlen) = false := by
      simp only [dimsCompatible, decide_eq_false_iff_not]
      omega
    simp [broadcastCompatible, maskShape, scoresShape, broadcastDims, h1]
  · have h2 : dimsCompatible seqlen (0 + seqlen) = true := by
      simp only [dimsCompatible, decide_eq_true_eq]
      omega
    have h3 : ∀ x, dimsCompatible 1 x = true := fun x => by
      simp [dimsCompatible]
    have h4 : dimsCompatible seqlen seqlen = true := by
      simp [dimsCompatible]
    simp [broadcastCompatible, maskShape, scoresShape, broadcastDims, h2, h3, h4]

/-- Witness for C8 at `bsz = 1`, one head, `seqlen = 2`, `start_pos = 1`. -/
theorem mask_broadcast_requires_start_zero_witness :
    1 < 2 ∧ 0 < 1 ∧
      (broadcastCompatible (maskShape 2) (scoresShape 1 1 2 1) = false ∧
        broadcastCompatible (maskShape 2) (scoresShape 1 1 2 0) = true ∧
        forwardMask 1 1 = none) :=
  ⟨by decide, by decide, mask_broadcast_requires_start_zero 1 1 2 1 (by decide) (by decide)⟩

/-- C4 (counterexample). At `seqlen = 2`, `start_pos = 1` the claim as
stated fails: the mask addition itself is a broadcast shape error (mask
`2 × 2` against scores `2 × 3`), so no masked score matrix with `-inf`
above the shifted diagonal exists. -/
theorem maskClaim_fails_at_offset :
    ¬ maskClaimHolds 2 1 [[0, 0, 0], [0, 0, 0]] := by
  rintro ⟨M, hM, -⟩
  have herr : maskedScores [[0, 0, 0], [0, 0, 0]] (causalMask 2 1) =
      Except.error "broadcast shape mismatch" := rfl
  rw [herr] at hM
  exact Except.noConfusion hM

/-- C4 (amended). For `seqlen > 1` and `start_pos = 0` (the only
multi-position case the shapes admit; see C8), the mask addition succeeds
and gives score `-inf` — hence exactly 0 probability after softmax — at
every query position `i` and key position `j` with `j > i`; and when
`seqlen == 1` no mask is applied. -/
theorem causalMask_correct_at_start (seqlen : ℕ) (f : ℚ → ℚ)
    (scores : List (List ℚ)) (hs : 1 < seqlen)
    (hrows : scores.length = seqlen)
    (hcols : ∀ r ∈ scores, r.length = seqlen) :
    (∃ M, maskedScores scores (causalMask seqlen 0) = Except.ok M ∧
      ∀ i j, i < seqlen → j < seqlen → i < j →
        ∃ row, M[i]? = some row ∧ row[j]? = some none ∧
          (softmaxRow f row)[j]? = some 0) ∧
    (∀ sp : ℕ, forwardMask 1 sp = none) := by
  refine ⟨?_, fun sp => rfl⟩
  have hhead : (scores.headD []).length = seqlen := by
    cases scores with
    | nil => simp at hrows; omega
    | cons a t => exact hcols a (by simp)
  have hmlen : (causalMask seqlen 0).length = seqlen := by simp [causalMask]
  have hmaskshape : shape2 (causalMask seqlen 0) = [seqlen, seqlen] := by
    obtain ⟨n, rfl⟩ : ∃ n, seqlen = n + 1 := ⟨seqlen - 1, by omega⟩
    simp [shape2, causalMask, List.range_succ_eq_map]
  have hscoreshape : shape2 scores = [seqlen, seqlen] := by
    rw [shape2, hrows, hhead]
  have hcompat : broadcastCompatible (shape2 scores)
      (shape2 (causalMask seqlen 0)) = true := by
    rw [hscoreshape, hmaskshape]
    simp [broadcastCompatible, broadcastDims, dimsCompatible]
  refine ⟨_, by rw [maskedScores, if_pos hcompat], ?_⟩
  intro i j hi hj hij
  have his : i < scores.length := by omega
  have him : i < (causalMask seqlen 0).length := by omega
  have hMi := zipWith_getElem?
    (fun srow mrow => List.zipWith addMaskEntry srow mrow) scores
    (causalMask seqlen 0) i his him
  refine ⟨_, hMi, ?_, ?_⟩
  · -- the (i, j) entry of the masked scores is -inf
    have hslen : (scores.get ⟨i, his⟩).length = seqlen :=
      hcols _ (List.get_mem scores i his)
    have hmilen : ((causalMask seqlen 0).get ⟨i, him⟩).length = seqlen := by
      simp [causalMask]
    have hmj : j < ((causalMask seqlen 0).get ⟨i, him⟩).length := by omega
    have hmij : ((causalMask seqlen 0).get ⟨i, him⟩).get ⟨j, hmj⟩ = none := by
      simp [causalMask, List.get_eq_getElem, List.getElem_map, List.getElem_range]
      omega
    have hjrow := zipWith_getElem? addMaskEntry (scores.get ⟨i, his⟩)
      ((causalMask seqlen 0).get ⟨i, him⟩) j (by omega) hmj
    rw [hjrow, hmij]
    rfl
  · -- post-softmax probability there is exactly 0
    apply softmaxRow_masked_zero
    have hslen : (scores.get ⟨i, his⟩).length = seqlen :=
      hcols _ (List.get_mem scores i his)
    have hmilen : ((causalMask seqlen 0).get ⟨i, him⟩).length = seqlen := by
      simp [causalMask]
    have hmj : j < ((causalMask seqlen 0).get ⟨i, him⟩).length := by omega
    have hmij : ((causalMask seqlen 0).get ⟨i, him⟩).get ⟨j, hmj⟩ = none := by
      simp [causalMask, List.get_eq_getElem, List.getElem_map, List.getElem_range]
      omega
    have hjrow := zipWith_getElem? addMaskEntry (scores.get ⟨i, his⟩)
      ((causalMask seqlen 0).get ⟨i, him⟩) j (by omega) hmj
    rw [hjrow, hmij]
    rfl

/-- Witness for C4 (amended) at `seqlen = 2`, constant exponential, zero
scores. -/
theorem causalMask_correct_at_start_witness :
    1 < 2 ∧ ([[0, 0], [0, 0]] : List (List ℚ)).length = 2 ∧
      (∀ r ∈ ([[0, 0], [0, 0]] : List (List ℚ)), r.length = 2) ∧
      ((∃ M, maskedScores [[0, 0], [0, 0]] (causalMask 2 0) = Except.ok M ∧
        ∀ i j, i < 2 → j < 2 → i < j →
          ∃ row, M[i]? = some row ∧ row[j]? = some none ∧
            (softmaxRow (fun _ => 1) row)[j]? = some 0) ∧
      (∀ sp : ℕ, forwardMask 1 sp = none)) :=
  ⟨by decide, by decide, by decide,
    causalMask_correct_at_start 2 (fun _ => 1) [[0, 0], [0, 0]]
      (by decide) (by decide) (by decide)⟩

/-- Squeezing a shape never changes the element count (it only removes
size-1 axes). -/
lemma squeezeShape_prod (s : List ℕ) : (squeezeShape s).prod = s.prod := by
  induction s with
  | nil => rfl
  | cons a t ih =>
    rcases eq_or_ne a 1 with h | h
    · rw [show squeezeShape (a :: t) = squeezeShape t by
        simp [squeezeShape, List.filter_cons, h]]
      rw [ih, List.prod_cons, h, one_mul]
    · rw [show squeezeShape (a :: t) = a :: squeezeShape t by
        simp [squeezeShape, List.filter_cons, h]]
      rw [List.prod_cons, List.prod_cons, ih]

/-- C9. The encrypted path of `Attention.forward` is well-defined only
for batch size 1: the squeezed, projected activation has
`bsz * seqlen * dim` elements while the target layout
`(seqlen, n_local_heads, head_dim)` carries no batch axis, so the
ciphertext reshape is valid exactly when `bsz = 1` — even though the KV
cache is allocated with a leading `max_batch_size` axis. -/
theorem attention_encrypted_path_batch_one_only (args : ModelArgs)
    (bsz seqlen : ℕ) (hd : args.dim = args.n_heads * headDim args)
    (hs : 0 < seqlen) (hdim : 0 < args.dim) :
    (1 < bsz →
      reshapeValid (attentionProjShape bsz seqlen args.dim)
        (headSplitShape seqlen args.n_heads (headDim args)) = false) ∧
    reshapeValid (attentionProjShape 1 seqlen args.dim)
        (headSplitShape seqlen args.n_heads (headDim args)) = true ∧
    (cacheShape args).headD 0 = args.max_batch_size := by
  have hsd : 0 < seqlen * args.dim := Nat.mul_pos hs hdim
  have hsrc : ∀ b, numel (attentionProjShape b seqlen args.dim) =
      b * (seqlen * args.dim) := by
    intro b
    rw [numel, attentionProjShape, squeezeShape_prod]
    simp [mul_assoc]
  have htgt : numel (headSplitShape seqlen args.n_heads (headDim args)) =
      seqlen * args.dim := by
    rw [numel, headSplitShape]
    simp [hd, mul_assoc]
  refine ⟨fun hb => ?_, ?_, rfl⟩
  · simp only [reshapeValid, decide_eq_false_iff_not]
    rw [hsrc, htgt]
    intro hEq
    have hb1 : bsz = 1 :=
      Nat.eq_of_mul_eq_mul_right hsd (by rw [hEq, one_mul])
    omega
  · simp only [reshapeValid, decide_eq_true_eq]
    rw [hsrc, htgt, one_mul]

/-- Witness for C9 with the source-default configuration, batch 2,
sequence length 2. -/
theorem attention_encrypted_path_batch_one_only_witness :
    ({} : ModelArgs).dim = ({} : ModelArgs).n_heads * headDim {} ∧
      0 < 2 ∧ 0 < ({} : ModelArgs).dim ∧
      ((1 < 2 →
        reshapeValid (attentionProjShape 2 2 ({} : ModelArgs).dim)
          (headSplitShape 2 ({} : ModelArgs).n_heads (headDim {})) = false) ∧
      reshapeValid (attentionProjShape 1 2 ({} : ModelArgs).dim)
          (headSplitShape 2 ({} : ModelArgs).n_heads (headDim {})) = true ∧
      (cacheShape {}).headD 0 = ({} : ModelArgs).max_batch_size) :=
  ⟨by decide, by decide, by decide,
    attention_encrypted_path_batch_one_only {} 2 2 (by decide) (by decide) (by decide)⟩

/-- Evaluation of `getD` through `map` over `range`. -/
lemma getD_map_range {β : Type} (n : ℕ) (g : ℕ → β) (d : β) (k : ℕ)
    (hk : k < n) : ((List.range n).map g).getD k d = g k := by
  rw [List.getD_eq_getElem?_getD, List.getElem?_map, List.getElem?_range hk]
  rfl

/-- Value `torch.polar(1, θ)` is the unit complex value at angle `θ`. -/
lemma torchPolar_one_eq_exp (θ : ℝ) :
    torchPolar 1 θ = Complex.exp ((θ : ℂ) * Complex.I) := by
  rw [torchPolar, one_mul, one_mul, Complex.ofReal_cos, Complex.ofReal_sin,
    Complex.exp_mul_I]

/-- C6. The rotary table at `(p, i)` (for `p < end`, `i < dim/2`,
base 10000) is the unit-magnitude complex value at angle
`p / 10000^(2i/dim)`, and the model builds the table for twice the
configured maximum sequence length (with head dimension
`dim // n_heads`). -/
theorem precompute_freqs_cis_correct (dim endLen p i : ℕ)
    (hp : p < endLen) (hi : i < dim / 2) :
    freqsCisEntry dim endLen 10000 p i =
      Complex.exp (Complex.ofReal
          ((p : ℝ) / (10000 : ℝ) ^ (((2 * i : ℕ) : ℝ) / (dim : ℝ))) * Complex.I) ∧
      Complex.abs (freqsCisEntry dim endLen 10000 p i) = 1 ∧
      ∀ args : ModelArgs, transformerFreqsCis args =
        precompute_freqs_cis (args.dim / args.n_heads) (2 * args.max_seq_len) 10000 := by
  have hentry : freqsCisEntry dim endLen 10000 p i =
      torchPolar 1 ((p : ℝ) * (1 / (10000 : ℝ) ^ (((2 * i : ℕ) : ℝ) / (dim : ℝ)))) := by
    rw [freqsCisEntry, precompute_freqs_cis]
    rw [getD_map_range _ _ _ _ hp, List.map_map, getD_map_range _ _ _ _ hi]
    rfl
  refine ⟨?_, ?_, ?_⟩
  · rw [hentry, mul_one_div, torchPolar_one_eq_exp]
  · rw [hentry, torchPolar_one_eq_exp]
    exact Complex.abs_exp_ofReal_mul_I _
  · intro args
    rw [transformerFreqsCis, Nat.mul_comm]

/-- Witness for C6 at `dim = 2`, table length 1, entry `(0, 0)`. -/
theorem precompute_freqs_cis_correct_witness :
    0 < 1 ∧ 0 < 2 / 2 ∧
      (freqsCisEntry 2 1 10000 0 0 =
        Complex.exp (Complex.ofReal (((0 : ℕ) : ℝ) /
            (10000 : ℝ) ^ (((2 * 0 : ℕ) : ℝ) / ((2 : ℕ) : ℝ))) * Complex.I) ∧
      Complex.abs (freqsCisEntry 2 1 10000 0 0) = 1 ∧
      ∀ args : ModelArgs, transformerFreqsCis args =
        precompute_freqs_cis (args.dim / args.n_heads) (2 * args.max_seq_len) 10000) :=
  ⟨by decide, by decide,
    precompute_freqs_cis_correct 2 1 0 0 (by decide) (by decide)⟩

/-- C1. The executed body of `apply_rotary_emb` uses the pair
selection `slice(0, 2)` (original order; the inline comment records the
change `1,0 -> 0,1`) instead of the docstring's `[1, 0]` swap, so it does
not implement a rotation: at head dimension 2, a single head, position 1
(angle 1, base frequency), the unit vector `(1, 0)` is mapped to
`(cos 1 - sin 1, 0)` — whereas the docstring's swapped form yields the
true rotation `(cos 1, sin 1)`, and `cos 1 - sin 1 ≠ cos 1`,
`0 ≠ sin 1`.  Rotation by angle 0 (position 0) still acts as the
identity. -/
theorem apply_rotary_emb_not_a_rotation :
    apply_rotary_emb [[[1, 0]]] [[[1, 0]]]
        ((precompute_freqs_cis 2 2 10000).drop 1) =
      ([[[Real.cos 1 - Real.sin 1, 0]]], [[[Real.cos 1 - Real.sin 1, 0]]]) ∧
    rotary_head_swap ((precompute_freqs_cis 2 2 10000).getD 1 []) [1, 0] =
      [Real.cos 1, Real.sin 1] ∧
    Real.cos 1 - Real.sin 1 ≠ Real.cos 1 ∧
    (0 : ℝ) ≠ Real.sin 1 ∧
    apply_rotary_emb [[[1, 0]]] [[[1, 0]]]
        ((precompute_freqs_cis 2 2 10000).take 1) =
      ([[[1, 0]]], [[[1, 0]]]) := by
  have hTable : precompute_freqs_cis 2 2 10000 = [[torchPolar 1 0], [torchPolar 1 1]] := by
    rw [precompute_freqs_cis]
    norm_num [List.range_succ, Real.rpow_zero]
  have hsin : 0 < Real.sin 1 := by
    refine Real.sin_pos_of_pos_of_lt_pi (by norm_num) ?_
    have h3 := Real.pi_gt_three
    linarith
  have hre : ∀ θ : ℝ, (torchPolar 1 θ).re = Real.cos θ := fun θ => by
    simp [torchPolar, Complex.cos_ofReal_re, Complex.sin_ofReal_re]
  have him : ∀ θ : ℝ, (torchPolar 1 θ).im = Real.sin θ := fun θ => by
    simp [torchPolar, Complex.cos_ofReal_re, Complex.sin_ofReal_re]
  refine ⟨?_, ?_, ?_, ?_, ?_⟩
  · rw [hTable]
    simp [apply_rotary_emb, apply_rotary_head, pairTransform, freqsCisL,
      freqsCisR, hre, him]
    ring_nf
  · rw [hTable]
    simp [rotary_head_swap, pairTransform, freqsCisL, freqsCisR, hre, him]
  · intro h
    have : Real.sin 1 = 0 := by linarith
    linarith
  · exact (ne_of_gt hsin).symm
  · rw [hTable]
    simp [apply_rotary_emb, apply_rotary_head, pairTransform, freqsCisL,
      freqsCisR, hre, him]

/-- C7. The final stage of `Transformer.forward` returns, for each batch
element, the logits of the final position only: it equals projecting the
last position's normalized hidden state (so earlier positions' logits are
never computed), has one row per batch element, and each row has one
entry per vocabulary row of the output matrix. -/
theorem transformer_forward_last_logits (W : List (List ℝ)) (w : List ℝ)
    (eps : ℝ) (h : List (List (List ℝ))) (hne : ∀ seq ∈ h, seq ≠ []) :
    transformerOutputStage W w eps h =
      h.map (fun seq => matVecR W (rmsNormRow w eps ((seq.getLast?).getD []))) ∧
    (transformerOutputStage W w eps h).length = h.length ∧
    ∀ row ∈ transformerOutputStage W w eps h, row.length = W.length := by
  have hmain : transformerOutputStage W w eps h =
      h.map (fun seq => matVecR W (rmsNormRow w eps ((seq.getLast?).getD []))) := by
    rw [transformerOutputStage, List.map_map]
    refine List.map_congr_left (fun seq hseq => ?_)
    have hlast : (seq.map (rmsNormRow w eps)).getLast? =
        seq.getLast?.map (rmsNormRow w eps) := List.getLast?_map ..
    cases hL : seq.getLast? with
    | none => exact absurd (List.getLast?_eq_none_iff.mp hL) (hne seq hseq)
    | some x =>
      simp only [Function.comp_apply, hlast, hL, Option.map_some', Option.getD_some]
  refine ⟨hmain, ?_, ?_⟩
  · rw [hmain, List.length_map]
  · intro row hrow
    rw [hmain] at hrow
    obtain ⟨seq, hseq, rfl⟩ := List.mem_map.mp hrow
    rw [matVecR, List.length_map]

/-- Witness for C7 on a one-element batch with a single position. -/
theorem transformer_forward_last_logits_witness :
    (∀ seq ∈ ([[[1]]] : List (List (List ℝ))), seq ≠ []) ∧
      (transformerOutputStage [[1]] [1] 0 [[[1]]] =
        ([[[1]]] : List (List (List ℝ))).map
          (fun seq => matVecR [[1]] (rmsNormRow [1] 0 ((seq.getLast?).getD []))) ∧
      (transformerOutputStage [[1]] [1] 0 [[[1]]]).length =
        ([[[1]]] : List (List (List ℝ))).length ∧
      ∀ row ∈ transformerOutputStage [[1]] [1] 0 [[[1]]],
        row.length = ([[1]] : List (List ℝ)).length) :=
  ⟨by simp, transformer_forward_last_logits [[1]] [1] 0 [[[1]]] (by simp)⟩

end LlamaTenseal
